import Mathlib

/-!
Verification development for the Flora Carbon species app (`app.py`).

Strings are modelled as `List Char`; Python's `re.sub` patterns used by the
code are modelled by small recursive functions on character lists:
`collapseRuns p r` models replacing maximal runs of characters matching `p`
by the single character `r`, `List.filter` models character-class deletion,
and `stripOn p` models `str.strip` (both-ends trimming of characters
matching `p`).  Python's whitespace and character classes are taken at
their ASCII core.  The filesystem and the spreadsheet reader are external
collaborators and are modelled as abstract structures (`FS`, `Row`).
-/

namespace FloraCarbon

/-- ASCII whitespace, the core of Python's `\s` / `str.strip()`. -/
def isWs (c : Char) : Bool :=
  decide (c.toNat = 32 ∨ c.toNat = 9 ∨ c.toNat = 10 ∨ c.toNat = 11 ∨
          c.toNat = 12 ∨ c.toNat = 13)

def isAsciiUpper (c : Char) : Bool := decide (65 ≤ c.toNat ∧ c.toNat ≤ 90)

/-- ASCII core of Python's `str.lower`, applied characterwise. -/
def lowerChar (c : Char) : Char :=
  if isAsciiUpper c then Char.ofNat (c.toNat + 32) else c

def isLowerAlpha (c : Char) : Bool := decide (97 ≤ c.toNat ∧ c.toNat ≤ 122)

def isDigitCh (c : Char) : Bool := decide (48 ≤ c.toNat ∧ c.toNat ≤ 57)

/-- The class `[_\-]` of `_norm_key`. -/
def isUH (c : Char) : Bool := decide (c.toNat = 95 ∨ c.toNat = 45)

/-- A hyphen, the class `[\-]`. -/
def isHyp (c : Char) : Bool := decide (c.toNat = 45)

/-- The class `[\s_]` of `slugify`. -/
def isWsU (c : Char) : Bool := isWs c || decide (c.toNat = 95)

/-- The class `[a-z0-9\s]` kept by `_norm_key`. -/
def keepNorm (c : Char) : Bool := isLowerAlpha c || isDigitCh c || isWs c

/-- The class `[a-z0-9\-]` kept by `slugify`. -/
def keepSlug (c : Char) : Bool := isLowerAlpha c || isDigitCh c || isHyp c

/-- Drop characters matching `p` from both ends: Python's `str.strip`. -/
def stripOn (p : Char → Bool) (l : List Char) : List Char :=
  ((l.dropWhile p).reverse.dropWhile p).reverse

/-- `collapseRunsAux p r prev l` rewrites every maximal run of characters
matching `p` into the single character `r`; `prev` records whether the
previous input character was part of such a run. -/
def collapseRunsAux (p : Char → Bool) (r : Char) (prev : Bool) :
    List Char → List Char
  | [] => []
  | c :: cs =>
    if p c then
      if prev then collapseRunsAux p r true cs
      else r :: collapseRunsAux p r true cs
    else c :: collapseRunsAux p r false cs

/-- Models `re.sub(r"X+", r, s)` for a character class `X`. -/
def collapseRuns (p : Char → Bool) (r : Char) (l : List Char) : List Char :=
  collapseRunsAux p r false l

/-- `_norm_key` from `app.py`: strip, lower, `[_\-]+`→space,
delete `[^a-z0-9\s]`, `\s+`→space, strip. -/
def norm_keyL (l : List Char) : List Char :=
  let s1 := stripOn isWs l
  let s2 := s1.map lowerChar
  let s3 := collapseRuns isUH ' ' s2
  let s4 := s3.filter keepNorm
  let s5 := collapseRuns isWs ' ' s4
  stripOn isWs s5

/-- `_norm_key` on Lean strings. -/
def norm_key (s : String) : String := String.mk (norm_keyL s.data)

/-- `slugify` from `app.py`: strip, lower, `[\s_]+`→`-`,
delete `[^a-z0-9\-]`, `-+`→`-`, strip `-`. -/
def slugifyL (l : List Char) : List Char :=
  let s1 := (stripOn isWs l).map lowerChar
  let s2 := collapseRuns isWsU '-' s1
  let s3 := s2.filter keepSlug
  stripOn isHyp (collapseRuns isHyp '-' s3)

/-- `slugify` on Lean strings (the `lru_cache` memoization is a pure
performance detail and is not modelled). -/
def slugify (s : String) : String := String.mk (slugifyL s.data)

/-- `w.isPrefixOf l` written out: Python's `str.startswith`. -/
def sw : List Char → List Char → Bool
  | [], _ => true
  | _ :: _, [] => false
  | a :: as, b :: bs => (a == b) && sw as bs

/-- Contiguous-substring containment: Python's `w in l`. -/
def containsSub (w : List Char) : List Char → Bool
  | [] => sw w []
  | c :: cs => sw w (c :: cs) || containsSub w cs

/-- Try the pattern `\((single|double|triple)\)` (case-insensitive) at the
head of `l`; on success return the group, lower-cased. -/
def tagAt (l : List Char) : Option String :=
  let lw := l.map lowerChar
  if sw "(single)".data lw then some "single"
  else if sw "(double)".data lw then some "double"
  else if sw "(triple)".data lw then some "triple"
  else none

/-- `re.search` of `\((single|double|triple)\)` (case-insensitive): first
match anywhere in the text, group lower-cased. -/
def parenTag : List Char → Option String
  | [] => none
  | c :: cs =>
    match tagAt (c :: cs) with
    | some w => some w
    | none => parenTag cs

/-- The lower-cased stripped text `tl` used by the leaf classifier. -/
def lowerStrip (l : List Char) : List Char := (stripOn isWs l).map lowerChar

/-- `_leaf_category_and_subtype` from `app.py`, on its string branch. -/
def leaf_category_and_subtype (t0 : List Char) :
    Option String × Option String :=
  let t := stripOn isWs t0
  let tl := t.map lowerChar
  if sw "simple".data tl || containsSub "simple".data tl then
    (some "Simple", none)
  else if sw "pinnately".data tl || containsSub "pinnate".data tl ||
      containsSub "compound".data tl then
    (some "Pinnately compound", parenTag t)
  else if sw "palmately".data tl || containsSub "palmate".data tl then
    (some "Palmately compound", none)
  else (none, none)

/-- A Python value as it may reach `_norm_key` / the row fields. -/
inductive PyVal where
  | vNone : PyVal
  | vBool : Bool → PyVal
  | vInt : Int → PyVal
  | vStr : String → PyVal
deriving DecidableEq

/-- Python truthiness on the modelled values. -/
def truthy : PyVal → Bool
  | .vNone => false
  | .vBool b => b
  | .vInt n => decide (n ≠ 0)
  | .vStr s => decide (s ≠ "")

/-- Python's `str(...)` on the modelled values. -/
def pyStr : PyVal → String
  | .vNone => "None"
  | .vBool b => if b then "True" else "False"
  | .vInt n => toString n
  | .vStr s => s

/-- The coercion `if not isinstance(s, str): s = str(s or '')` at the top of
`_norm_key`. -/
def coerceStr : PyVal → String
  | .vStr s => s
  | v => if truthy v then pyStr v else ""

/-- `_norm_key` on an arbitrary Python value. -/
def norm_key_val (v : PyVal) : String := norm_key (coerceStr v)

/-- `_leaf_category_and_subtype` on an arbitrary Python value (the
`isinstance` guard). -/
def leaf_category_and_subtype_val (v : PyVal) : Option String × Option String :=
  match v with
  | .vStr s => leaf_category_and_subtype s.data
  | _ => (none, none)

/-- Association-list model of a Python dict keyed by normalized keys;
lookup returns the value stored for the key, if any. -/
def lookupA {α : Type} : List (List Char × α) → List Char → Option α
  | [], _ => none
  | (k, v) :: rest, key => if k = key then some v else lookupA rest key

/-- Dict insertion: an existing key keeps its position and gets the new
value (Python dict update), a new key is appended. -/
def insertA {α : Type} : List (List Char × α) → List Char → α → List (List Char × α)
  | [], k, v => [(k, v)]
  | (k0, v0) :: rest, k, v =>
    if k0 = k then (k0, v) :: rest else (k0, v0) :: insertA rest k v

/-- The shared resolver loop: normalize each candidate key in order and
return the first one present in the index. -/
def firstKeyHit (idx : List (List Char × String)) : List (List Char) → Option String
  | [] => none
  | k :: ks =>
    match lookupA idx (norm_keyL k) with
    | some p => some p
    | none => firstKeyHit idx ks

/-- Search for the closing `)` of a lazy `\(.*?\)` match: the first `)`,
failing if a newline (which `.` cannot match) comes first. -/
def findClose : List Char → Option (List Char)
  | [] => none
  | c :: cs => if c = ')' then some cs else if c = '\n' then none else findClose cs

/-- Fuelled scan for `re.sub(r"\(.*?\)", "", s)`: at each `(` that has a
closing `)` with no intervening newline, delete through that `)` and resume
after it; every step consumes at least one input character, so `l.length`
fuel suffices. -/
def stripParensFuel : Nat → List Char → List Char
  | 0, l => l
  | _ + 1, [] => []
  | fuel + 1, c :: cs =>
    if c = '(' then
      match findClose cs with
      | some rest => stripParensFuel fuel rest
      | none => c :: stripParensFuel fuel cs
    else c :: stripParensFuel fuel cs

/-- `re.sub(r"\(.*?\)", "", s)` as used by `_pick_species_icon`. -/
def stripParens (l : List Char) : List Char := stripParensFuel l.length l

/-- The candidate list built by `_pick_species_icon`: the two names, then
for each the parenthesis-stripped trimmed variant when non-empty and new. -/
def speciesCandidates (sci com : List Char) : List (List Char) :=
  let start := [sci, com]
  start.foldl
    (fun acc c =>
      let c2 := stripOn isWs (stripParens c)
      if c2 ≠ [] ∧ c2 ∉ acc then acc ++ [c2] else acc)
    start

/-- `_pick_species_icon` from `app.py`, over a given species index. -/
def pick_species_icon (idx : List (List Char × String)) (sci com : List Char) :
    Option String :=
  firstKeyHit idx (speciesCandidates sci com)

/-- `_pick_leaf_icon` from `app.py`, over a given leaf index. -/
def pick_leaf_icon (idx : List (List Char × String))
    (toplevel subtype : Option String) : Option String :=
  let t := (toplevel.getD "").data.map lowerChar
  let keys : List (List Char) :=
    if sw "simple".data t then ["simple leaf".data, "simple".data]
    else if sw "pinnately".data t then
      if subtype = some "single" then
        ["single compound".data, "pinnately single".data,
         "pinnately compound single".data]
      else if subtype = some "double" then
        ["double compound".data, "pinnately double".data,
         "pinnately compound double".data]
      else ["pinnately compound".data, "compound".data]
    else if sw "palmately".data t then
      ["palmately compound".data, "palmate".data, "palmately".data]
    else []
  firstKeyHit idx keys

/-- The alias loop at the end of `_pick_fruit_icon`. -/
def fruitAlias (idx : List (List Char × String)) (nk : List Char) :
    List (List Char) → Option String
  | [] => none
  | a :: rest =>
    if nk = a then
      match lookupA idx a with
      | some p => some p
      | none => fruitAlias idx nk rest
    else fruitAlias idx nk rest

def fruitAliases : List (List Char) :=
  ["pod".data, "capsule".data, "drupe".data, "other".data]

/-- `_pick_fruit_icon` from `app.py`, over a given fruit index. -/
def pick_fruit_icon (idx : List (List Char × String)) (ft : List Char) :
    Option String :=
  if ft = [] then none
  else
    match lookupA idx (norm_keyL ft) with
    | some p => some p
    | none => fruitAlias idx (norm_keyL ft) fruitAliases

/-- The filesystem as a directory-listing provider (external collaborator):
`rootRel full` models `'/' + os.path.relpath(full, APP_ROOT)` with forward
slashes, and `globSorted dir` models `sorted(glob.glob(dir + '/*'))`. -/
structure FS where
  isDir : String → Bool
  listDir : String → List String
  isFile : String → Bool
  rootRel : String → String
  globSorted : String → List String

def joinPath (a b : String) : String := a ++ "/" ++ b

def ALLOWED_IMG_EXT : List (List Char) :=
  [".jpg".data, ".jpeg".data, ".png".data, ".webp".data, ".gif".data, ".bmp".data]

/-- `os.path.splitext` on a separator-free file name: split at the last dot
unless every character before it is a dot. -/
def splitext (l : List Char) : List Char × List Char :=
  let extRevLen := (l.reverse.takeWhile (fun c => !(c == '.'))).length
  if extRevLen = l.length then (l, [])
  else
    let root := l.take (l.length - extRevLen - 1)
    let ext := l.drop (l.length - extRevLen - 1)
    if root.all (fun c => c == '.') then (l, [])
    else (root, ext)

/-- `_build_icon_index` from `app.py`. -/
def build_icon_index (fs : FS) (folder : String) : List (List Char × String) :=
  if fs.isDir folder then
    (fs.listDir folder).foldl
      (fun out fname =>
        let full := joinPath folder fname
        if fs.isFile full then
          let ext := (splitext fname.data).2.map lowerChar
          if ALLOWED_IMG_EXT.contains ext then
            insertA out (norm_keyL (splitext fname.data).1) (fs.rootRel full)
          else out
        else out)
      []
  else []

/-- The per-record photo listing loop of `load_and_process_data`. -/
def resolvePhotos (fs : FS) (photoRoot : String) (rec_id : List Char) :
    List String :=
  let dir := joinPath photoRoot (String.mk rec_id)
  if fs.isDir dir then
    (fs.globSorted dir).foldl
      (fun ps path =>
        if ALLOWED_IMG_EXT.contains ((splitext path.data).2.map lowerChar) then
          ps ++ [fs.rootRel path]
        else ps)
      []
  else []

/-- One spreadsheet row after the required-column defaulting (the reader is
an external collaborator producing string cells). -/
structure Row where
  sr_no : String
  scientific_name : String
  etymology : String
  common_name : String
  habitat : String
  phenology : String
  identification : String
  leaf_type : String
  fruit_type : String
  seed_germination : String
  pest : String
deriving DecidableEq

structure Icons where
  species : Option String
  leaf : Option String
  fruit : Option String
deriving DecidableEq

structure SpeciesRecord where
  id : List Char
  sr_no : String
  scientific_name : List Char
  etymology : List Char
  common_name : List Char
  habitat : List Char
  phenology : List Char
  identification : List Char
  leaf_type_raw : List Char
  leaf_category : Option String
  leaf_subtype : Option String
  fruit_type : List Char
  seed_germination : List Char
  pest : List Char
  photos : List String
  icons : Icons
deriving DecidableEq

/-- The static context of `load_and_process_data`: the filesystem, the photo
root, and the three icon indexes built at startup. -/
structure Env where
  fs : FS
  photoRoot : String
  speciesIdx : List (List Char × String)
  leafIdx : List (List Char × String)
  fruitIdx : List (List Char × String)

/-- The loop body of `load_and_process_data` assembling one record. -/
def buildRecord (env : Env) (row : Row) : SpeciesRecord :=
  let sci := stripOn isWs row.scientific_name.data
  let com := stripOn isWs row.common_name.data
  let rec_id := slugifyL sci
  let leaf_raw := stripOn isWs row.leaf_type.data
  let lc := leaf_category_and_subtype leaf_raw
  let photos := resolvePhotos env.fs env.photoRoot rec_id
  let species_icon := pick_species_icon env.speciesIdx sci com
  let leaf_icon := pick_leaf_icon env.leafIdx lc.1 lc.2
  let fruit_raw := stripOn isWs row.fruit_type.data
  let fruit_icon := pick_fruit_icon env.fruitIdx fruit_raw
  { id := rec_id
    sr_no := row.sr_no
    scientific_name := sci
    etymology := stripOn isWs row.etymology.data
    common_name := com
    habitat := stripOn isWs row.habitat.data
    phenology := stripOn isWs row.phenology.data
    identification := stripOn isWs row.identification.data
    leaf_type_raw := leaf_raw
    leaf_category := lc.1
    leaf_subtype := lc.2
    fruit_type := fruit_raw
    seed_germination := stripOn isWs row.seed_germination.data
    pest := stripOn isWs row.pest.data
    photos := photos
    icons := ⟨species_icon, leaf_icon, fruit_icon⟩ }

def LEAF_TOPLEVEL : List String := ["Simple", "Pinnately compound", "Palmately compound"]

def LEAF_SUBTYPES : List String := ["single", "double"]

def insortStr (x : String) : List String → List String
  | [] => [x]
  | y :: ys => if y < x then y :: insortStr x ys else x :: y :: ys

/-- Python's `sorted` on strings (insertion sort, lexicographic). -/
def sortStr (l : List String) : List String := l.foldr insortStr []

/-- Distinct elements, as collected by a Python set comprehension. -/
def dedupStr (l : List String) : List String :=
  l.foldl (fun acc x => if x ∈ acc then acc else acc ++ [x]) []

structure Filters where
  leaf_toplevel : List String
  leaf_subtypes_possible : List String
  fruit_types : List String
  leaf_chip_icons : List (String × Option String)
  fruit_chip_icons : List (String × Option String)

/-- `load_and_process_data` from `app.py`, over the rows produced by the
spreadsheet reader (a missing file is modelled by the empty row list). -/
def load_and_process_data (env : Env) (rows : List Row) :
    List SpeciesRecord × List (List Char × SpeciesRecord) × Filters :=
  let kept := rows.filter (fun r => !(stripOn isWs r.scientific_name.data).isEmpty)
  let pr := kept.foldl
    (fun acc row =>
      let r := buildRecord env row
      (acc.1 ++ [r], insertA acc.2 r.id r))
    ([], [])
  let fruit_types := sortStr (dedupStr (pr.1.filterMap
    (fun r =>
      let ft := stripOn isWs r.fruit_type
      if ft.isEmpty then none else some (String.mk ft))))
  let leaf_chip_icons := LEAF_TOPLEVEL.map
    (fun lt => (lt, pick_leaf_icon env.leafIdx (some lt) none))
  let fruit_chip_icons := fruit_types.map
    (fun ft => (ft, pick_fruit_icon env.fruitIdx ft.data))
  (pr.1, pr.2,
    { leaf_toplevel := LEAF_TOPLEVEL
      leaf_subtypes_possible := LEAF_SUBTYPES
      fruit_types := fruit_types
      leaf_chip_icons := leaf_chip_icons
      fruit_chip_icons := fruit_chip_icons })

/-- The character shape of `_norm_key` output: lowercase letter, digit, or
a plain space. -/
def normChar (c : Char) : Bool := isLowerAlpha c || isDigitCh c || (c == ' ')

/-- `headOk p l` holds when `l` does not start with a character matching `p`. -/
def headOk (p : Char → Bool) : List Char → Bool
  | [] => true
  | c :: _ => !(p c)

/-- `lastOk p l` holds when `l` does not end with a character matching `p`. -/
def lastOk (p : Char → Bool) (l : List Char) : Bool := headOk p l.reverse

/-- `noAdj p l` holds when no two adjacent characters of `l` both match `p`. -/
def noAdj (p : Char → Bool) : List Char → Bool
  | [] => true
  | [_] => true
  | a :: b :: rest => (!(p a && p b)) && noAdj p (b :: rest)

theorem sw_containsSub {w l : List Char} (h : sw w l = true) :
    containsSub w l = true := by
  cases l with
  | nil => simpa [containsSub] using h
  | cons c cs => simp [containsSub, h]

theorem sw_trans : ∀ {u v l : List Char}, sw u v = true → sw v l = true →
    sw u l = true := by
  intro u
  induction u with
  | nil => intro v l _ _; rfl
  | cons a as ih =>
    intro v l h1 h2
    cases v with
    | nil => simp [sw] at h1
    | cons b bs =>
      cases l with
      | nil => simp [sw] at h2
      | cons c cs =>
        simp [sw] at h1 h2 ⊢
        exact ⟨h1.1.trans h2.1, ih h1.2 h2.2⟩

theorem noAdj_tail {p : Char → Bool} {c : Char} {cs : List Char}
    (h : noAdj p (c :: cs) = true) : noAdj p cs = true := by
  cases cs with
  | nil => rfl
  | cons d ds =>
    simp [noAdj] at h
    exact h.2

theorem noAdj_cons_of_headOk {p : Char → Bool} {a : Char} {xs : List Char}
    (h1 : headOk p xs = true) (h2 : noAdj p xs = true) :
    noAdj p (a :: xs) = true := by
  cases xs with
  | nil => rfl
  | cons d ds =>
    simp [headOk] at h1
    simp [noAdj, h1, h2]

theorem noAdj_cons_of_not {p : Char → Bool} {a : Char} {xs : List Char}
    (h1 : p a = false) (h2 : noAdj p xs = true) :
    noAdj p (a :: xs) = true := by
  cases xs with
  | nil => rfl
  | cons d ds => simp [noAdj, h1, h2]

theorem noAdj_append_right {p : Char → Bool} :
    ∀ {xs ys : List Char}, noAdj p (xs ++ ys) = true → noAdj p ys = true := by
  intro xs
  induction xs with
  | nil => intro ys h; simpa using h
  | cons c cs ih => intro ys h; exact ih (noAdj_tail h)

theorem noAdj_append_left {p : Char → Bool} :
    ∀ {xs ys : List Char}, noAdj p (xs ++ ys) = true → noAdj p xs = true := by
  intro xs
  induction xs with
  | nil => intro ys _; rfl
  | cons c cs ih =>
    intro ys h
    cases cs with
    | nil => rfl
    | cons d ds =>
      have h' : noAdj p (c :: d :: (ds ++ ys)) = true := h
      simp [noAdj] at h' ⊢
      exact ⟨h'.1, ih (by simpa [noAdj] using h'.2)⟩

theorem headOk_append {p : Char → Bool} {r s : List Char}
    (h : headOk p (r ++ s) = true) : headOk p r = true := by
  cases r with
  | nil => rfl
  | cons c cs => simpa [headOk] using h

theorem dropWhile_decomp (p : Char → Bool) :
    ∀ l : List Char, ∃ t, l = t ++ l.dropWhile p := by
  intro l
  induction l with
  | nil => exact ⟨[], rfl⟩
  | cons c cs ih =>
    by_cases hc : p c = true
    · obtain ⟨t, ht⟩ := ih
      refine ⟨c :: t, ?_⟩
      rw [List.dropWhile_cons, if_pos hc, List.cons_append, ← ht]
    · refine ⟨[], ?_⟩
      rw [List.dropWhile_cons, if_neg hc, List.nil_append]

theorem headOk_dropWhile (p : Char → Bool) :
    ∀ l : List Char, headOk p (l.dropWhile p) = true := by
  intro l
  induction l with
  | nil => rfl
  | cons c cs ih =>
    by_cases hc : p c = true
    · simpa [List.dropWhile_cons, hc] using ih
    · simp only [List.dropWhile_cons, if_neg hc, headOk]
      simpa using hc

theorem dropWhile_eq_self {p : Char → Bool} {l : List Char}
    (h : headOk p l = true) : l.dropWhile p = l := by
  cases l with
  | nil => rfl
  | cons c cs =>
    simp [headOk] at h
    simp [List.dropWhile_cons, h]

theorem stripOn_decomp (p : Char → Bool) (l : List Char) :
    (∃ t1 t2, l = t1 ++ stripOn p l ++ t2) ∧ headOk p (stripOn p l) = true ∧
      lastOk p (stripOn p l) = true := by
  obtain ⟨t1, ht1⟩ := dropWhile_decomp p l
  obtain ⟨t2, ht2⟩ := dropWhile_decomp p (l.dropWhile p).reverse
  have hy : l.dropWhile p = stripOn p l ++ t2.reverse := by
    have hrev := congrArg List.reverse ht2
    simpa [stripOn, List.reverse_append] using hrev
  refine ⟨⟨t1, t2.reverse, ?_⟩, ?_, ?_⟩
  · rw [List.append_assoc, ← hy, ← ht1]
  · exact headOk_append (by rw [← hy]; exact headOk_dropWhile p l)
  · show headOk p (stripOn p l).reverse = true
    simpa [stripOn] using headOk_dropWhile p (l.dropWhile p).reverse

theorem stripOn_eq_self {p : Char → Bool} {l : List Char}
    (h1 : headOk p l = true) (h2 : lastOk p l = true) : stripOn p l = l := by
  have h2' : headOk p l.reverse = true := h2
  rw [stripOn, dropWhile_eq_self h1, dropWhile_eq_self h2', List.reverse_reverse]

theorem mem_stripOn {p : Char → Bool} {c : Char} {l : List Char}
    (h : c ∈ stripOn p l) : c ∈ l := by
  obtain ⟨⟨t1, t2, hdec⟩, -, -⟩ := stripOn_decomp p l
  rw [hdec]
  simp only [List.mem_append]
  exact Or.inl (Or.inr h)

theorem noAdj_stripOn {p : Char → Bool} {l : List Char}
    (h : noAdj p l = true) : noAdj p (stripOn p l) = true := by
  obtain ⟨⟨t1, t2, hdec⟩, -, -⟩ := stripOn_decomp p l
  rw [hdec] at h
  exact noAdj_append_right (noAdj_append_left h)

theorem mem_collapseRunsAux {p : Char → Bool} {r : Char} :
    ∀ {l : List Char} {prev : Bool} {c : Char}, c ∈ collapseRunsAux p r prev l →
      c = r ∨ (c ∈ l ∧ p c = false) := by
  intro l
  induction l with
  | nil => intro prev c h; simp [collapseRunsAux] at h
  | cons a as ih =>
    intro prev c h
    by_cases pa : p a = true
    · cases prev with
      | true =>
        simp only [collapseRunsAux, if_pos pa, if_pos rfl] at h
        rcases ih h with h1 | ⟨h1, h2⟩
        · exact Or.inl h1
        · exact Or.inr ⟨List.mem_cons_of_mem a h1, h2⟩
      | false =>
        simp only [collapseRunsAux, if_pos pa] at h
        rcases List.mem_cons.mp h with h1 | h1
        · exact Or.inl h1
        · rcases ih h1 with h2 | ⟨h2, h3⟩
          · exact Or.inl h2
          · exact Or.inr ⟨List.mem_cons_of_mem a h2, h3⟩
    · have pa' : p a = false := by simpa using pa
      simp only [collapseRunsAux, if_neg pa] at h
      rcases List.mem_cons.mp h with h1 | h1
      · exact Or.inr ⟨by simp [h1], by rwa [h1]⟩
      · rcases ih h1 with h2 | ⟨h2, h3⟩
        · exact Or.inl h2
        · exact Or.inr ⟨List.mem_cons_of_mem a h2, h3⟩

theorem collapseRunsAux_noAdj {p : Char → Bool} {r : Char} :
    ∀ l : List Char, (∀ prev, noAdj p (collapseRunsAux p r prev l) = true) ∧
      headOk p (collapseRunsAux p r true l) = true := by
  intro l
  induction l with
  | nil => exact ⟨fun _ => rfl, rfl⟩
  | cons a as ih =>
    constructor
    · intro prev
      by_cases pa : p a = true
      · cases prev with
        | true => simpa [collapseRunsAux, pa] using ih.1 true
        | false =>
          simp only [collapseRunsAux, if_pos pa]
          exact noAdj_cons_of_headOk ih.2 (ih.1 true)
      · have pa' : p a = false := by simpa using pa
        simp only [collapseRunsAux, if_neg pa]
        exact noAdj_cons_of_not pa' (ih.1 false)
    · by_cases pa : p a = true
      · simpa [collapseRunsAux, pa] using ih.2
      · have pa' : p a = false := by simpa using pa
        simp only [collapseRunsAux, if_neg pa, headOk]
        simpa using pa'

theorem mem_collapseRuns {p : Char → Bool} {r : Char} {c : Char} {l : List Char}
    (h : c ∈ collapseRuns p r l) : c = r ∨ (c ∈ l ∧ p c = false) :=
  mem_collapseRunsAux h

theorem noAdj_collapseRuns (p : Char → Bool) (r : Char) (l : List Char) :
    noAdj p (collapseRuns p r l) = true :=
  (collapseRunsAux_noAdj l).1 false

theorem collapseRuns_eq_self_of_none {p : Char → Bool} {r : Char} :
    ∀ {l : List Char}, (∀ c ∈ l, p c = false) → ∀ prev,
      collapseRunsAux p r prev l = l := by
  intro l
  induction l with
  | nil => intro _ prev; rfl
  | cons a as ih =>
    intro h prev
    have pa : p a = false := h a (by simp)
    simp only [collapseRunsAux, pa, Bool.false_eq_true, if_false, List.cons.injEq,
      true_and]
    exact ih (fun c hc => h c (List.mem_cons_of_mem a hc)) false

theorem collapseRuns_eq_self_oneSpaced {p : Char → Bool} {r : Char} :
    ∀ {l : List Char}, (∀ c ∈ l, p c = true → c = r) → noAdj p l = true →
      ∀ prev, (prev = true → headOk p l = true) →
      collapseRunsAux p r prev l = l := by
  intro l
  induction l with
  | nil => intro _ _ prev _; rfl
  | cons a as ih =>
    intro h1 h2 prev hp
    by_cases pa : p a = true
    · have ha : a = r := h1 a (by simp) pa
      cases prev with
      | true =>
        have := hp rfl
        simp [headOk, pa] at this
      | false =>
        have hhead : headOk p as = true := by
          cases as with
          | nil => rfl
          | cons d ds =>
            simp [noAdj] at h2
            have : p d = false := by
              rcases h2.1 with hd | hd
              · exact absurd hd (by simp [pa])
              · exact hd
            simp [headOk, this]
        have htail : collapseRunsAux p r true as = as :=
          ih (fun c hc hpc => h1 c (List.mem_cons_of_mem a hc) hpc)
            (noAdj_tail h2) true (fun _ => hhead)
        subst ha
        simp [collapseRunsAux, pa, htail]
    · have pa' : p a = false := by simpa using pa
      have htail : collapseRunsAux p r false as = as :=
        ih (fun c hc hpc => h1 c (List.mem_cons_of_mem a hc) hpc)
          (noAdj_tail h2) false (fun h => Bool.noConfusion h)
      simp only [collapseRunsAux, if_neg pa, htail]

theorem mapSelf {α : Type} {f : α → α} :
    ∀ {l : List α}, (∀ c ∈ l, f c = c) → l.map f = l := by
  intro l
  induction l with
  | nil => intro _; rfl
  | cons a as ih =>
    intro h
    rw [List.map_cons, h a (by simp), ih (fun c hc => h c (List.mem_cons_of_mem a hc))]

theorem filterSelf {q : Char → Bool} :
    ∀ {l : List Char}, (∀ c ∈ l, q c = true) → l.filter q = l := by
  intro l
  induction l with
  | nil => intro _; rfl
  | cons a as ih =>
    intro h
    rw [List.filter_cons_of_pos (h a (by simp)),
      ih (fun c hc => h c (List.mem_cons_of_mem a hc))]

theorem normChar_cases {c : Char} (h : normChar c = true) :
    isLowerAlpha c = true ∨ isDigitCh c = true ∨ c = ' ' := by
  have h' := h
  simp [normChar, Bool.or_eq_true, beq_iff_eq] at h'
  tauto

theorem toNat_bounds {c : Char} (h : normChar c = true) :
    (97 ≤ c.toNat ∧ c.toNat ≤ 122) ∨ (48 ≤ c.toNat ∧ c.toNat ≤ 57) ∨
      c.toNat = 32 := by
  rcases normChar_cases h with h1 | h1 | h1
  · left; simpa [isLowerAlpha] using h1
  · right; left; simpa [isDigitCh] using h1
  · right; right; subst h1; rfl

theorem isAsciiUpper_false_of_norm {c : Char} (h : normChar c = true) :
    isAsciiUpper c = false := by
  have := toNat_bounds h
  simp only [isAsciiUpper, decide_eq_false_iff_not, not_and, not_le]
  omega

theorem lowerChar_fixed {c : Char} (h : normChar c = true) : lowerChar c = c := by
  simp [lowerChar, isAsciiUpper_false_of_norm h]

theorem isUH_false_of_norm {c : Char} (h : normChar c = true) :
    isUH c = false := by
  have := toNat_bounds h
  simp only [isUH, decide_eq_false_iff_not]
  omega

theorem keepNorm_of_norm {c : Char} (h : normChar c = true) :
    keepNorm c = true := by
  have := toNat_bounds h
  simp only [keepNorm, isLowerAlpha, isDigitCh, isWs, Bool.or_eq_true,
    decide_eq_true_eq]
  omega

theorem ws_space_of_norm {c : Char} (h : normChar c = true)
    (hw : isWs c = true) : c = ' ' := by
  have hb := toNat_bounds h
  have hw' : c.toNat = 32 ∨ c.toNat = 9 ∨ c.toNat = 10 ∨ c.toNat = 11 ∨
      c.toNat = 12 ∨ c.toNat = 13 := by simpa [isWs] using hw
  rcases normChar_cases h with h1 | h1 | h1
  · exfalso
    have : 97 ≤ c.toNat ∧ c.toNat ≤ 122 := by simpa [isLowerAlpha] using h1
    omega
  · exfalso
    have : 48 ≤ c.toNat ∧ c.toNat ≤ 57 := by simpa [isDigitCh] using h1
    omega
  · exact h1

theorem norm_keyL_good (l : List Char) :
    (∀ c ∈ norm_keyL l, normChar c = true) ∧
      noAdj isWs (norm_keyL l) = true ∧
      headOk isWs (norm_keyL l) = true ∧ lastOk isWs (norm_keyL l) = true := by
  have hdef : norm_keyL l = stripOn isWs (collapseRuns isWs ' '
      ((collapseRuns isUH ' ' ((stripOn isWs l).map lowerChar)).filter keepNorm)) := rfl
  rw [hdef]
  obtain ⟨-, hh, hl⟩ := stripOn_decomp isWs (collapseRuns isWs ' '
    ((collapseRuns isUH ' ' ((stripOn isWs l).map lowerChar)).filter keepNorm))
  refine ⟨?_, ?_, hh, hl⟩
  · intro c hc
    have hc5 := mem_stripOn hc
    rcases mem_collapseRuns hc5 with h1 | ⟨h1, h2⟩
    · subst h1; rfl
    · have hk : keepNorm c = true := (List.mem_filter.mp h1).2
      have had : isLowerAlpha c = true ∨ isDigitCh c = true := by
        simp [keepNorm, Bool.or_eq_true, h2] at hk
        tauto
      simp only [normChar, Bool.or_eq_true]
      tauto
  · exact noAdj_stripOn (noAdj_collapseRuns isWs ' ' _)

theorem norm_keyL_fixed {l : List Char} (hmem : ∀ c ∈ l, normChar c = true)
    (hadj : noAdj isWs l = true) (hh : headOk isWs l = true)
    (hl : lastOk isWs l = true) : norm_keyL l = l := by
  have e1 : stripOn isWs l = l := stripOn_eq_self hh hl
  have e2 : l.map lowerChar = l := mapSelf fun c hc => lowerChar_fixed (hmem c hc)
  have e3 : collapseRuns isUH ' ' l = l :=
    collapseRuns_eq_self_of_none (fun c hc => isUH_false_of_norm (hmem c hc)) false
  have e4 : l.filter keepNorm = l := filterSelf fun c hc => keepNorm_of_norm (hmem c hc)
  have e5 : collapseRuns isWs ' ' l = l :=
    collapseRuns_eq_self_oneSpaced
      (fun c hc hw => ws_space_of_norm (hmem c hc) hw) hadj false
      (fun h => Bool.noConfusion h)
  show stripOn isWs (collapseRuns isWs ' '
    ((collapseRuns isUH ' ' ((stripOn isWs l).map lowerChar)).filter keepNorm)) = l
  rw [e1, e2, e3, e4, e5, e1]

theorem slugifyL_good (l : List Char) :
    (∀ c ∈ slugifyL l, keepSlug c = true) ∧
      noAdj isHyp (slugifyL l) = true ∧
      headOk isHyp (slugifyL l) = true ∧ lastOk isHyp (slugifyL l) = true := by
  have hdef : slugifyL l = stripOn isHyp (collapseRuns isHyp '-'
      ((collapseRuns isWsU '-' ((stripOn isWs l).map lowerChar)).filter keepSlug)) := rfl
  rw [hdef]
  obtain ⟨-, hh, hl⟩ := stripOn_decomp isHyp (collapseRuns isHyp '-'
    ((collapseRuns isWsU '-' ((stripOn isWs l).map lowerChar)).filter keepSlug))
  refine ⟨?_, noAdj_stripOn (noAdj_collapseRuns isHyp '-' _), hh, hl⟩
  intro c hc
  rcases mem_collapseRuns (mem_stripOn hc) with h1 | ⟨h1, -⟩
  · subst h1; rfl
  · exact (List.mem_filter.mp h1).2

theorem fruitAlias_none {idx : List (List Char × String)} {nk : List Char}
    (h : lookupA idx nk = none) :
    ∀ as : List (List Char), fruitAlias idx nk as = none := by
  intro as
  induction as with
  | nil => rfl
  | cons a rest ih =>
    by_cases ha : nk = a
    · subst ha
      simp [fruitAlias, h, ih]
    · simp [fruitAlias, ha, ih]

/-- C1: the leaf classifier applies its ordered rules first-match-wins:
"Pinnately compound (double)" yields category "Pinnately compound" with
subtype "double"; "Simple leaf" yields "Simple" with no subtype; the bare
word "compound" still yields "Pinnately compound" (the heuristic bias is
preserved); unrecognized text yields (none, none). -/
theorem leaf_classification_priority :
    leaf_category_and_subtype "Pinnately compound (double)".data =
      (some "Pinnately compound", some "double") ∧
    leaf_category_and_subtype "Simple leaf".data = (some "Simple", none) ∧
    leaf_category_and_subtype "compound".data =
      (some "Pinnately compound", none) ∧
    leaf_category_and_subtype "unknown text".data = (none, none) := by
  decide

/-- C3: the key normalizer is idempotent: normalizing an already-normalized
string changes nothing. -/
theorem norm_key_idem (s : String) : norm_key (norm_key s) = norm_key s := by
  obtain ⟨hmem, hadj, hh, hl⟩ := norm_keyL_good s.data
  have hfix : norm_keyL (norm_keyL s.data) = norm_keyL s.data :=
    norm_keyL_fixed hmem hadj hh hl
  show String.mk (norm_keyL (norm_keyL s.data)) = String.mk (norm_keyL s.data)
  rw [hfix]

/-- C4: the key normalizer identifies display-label variants differing only
in case, underscores/hyphens, or punctuation: "Red Sandalwood",
"red_sandalwood" and "RED-SANDALWOOD!!" all normalize identically. -/
theorem norm_key_collapses_variants :
    norm_key "Red Sandalwood" = norm_key "red_sandalwood" ∧
      norm_key "red_sandalwood" = norm_key "RED-SANDALWOOD!!" := by
  decide

/-- C5: slugify is a deterministic function of its input, and its output
contains only lowercase letters, digits and hyphens (`keepSlug`), with no
leading hyphen, no trailing hyphen, and no two consecutive hyphens. -/
theorem slugify_shape (s : String) :
    (∀ t, s = t → slugify s = slugify t) ∧
      (∀ c ∈ (slugify s).data, keepSlug c = true) ∧
      headOk isHyp (slugify s).data = true ∧
      lastOk isHyp (slugify s).data = true ∧
      noAdj isHyp (slugify s).data = true := by
  obtain ⟨hmem, hadj, hh, hl⟩ := slugifyL_good s.data
  exact ⟨fun t ht => by rw [ht], hmem, hh, hl, hadj⟩

/-- Witness for C5 at the concrete input "Santalum album". -/
theorem slugify_shape_witness :
    slugify "Santalum album" = slugify "Santalum album" ∧
      noAdj isHyp (slugify "Santalum album").data = true :=
  ⟨(slugify_shape "Santalum album").1 "Santalum album" rfl,
    (slugify_shape "Santalum album").2.2.2.2⟩

/-- The species index of C6: its only key is "ficus benghalensis". -/
def ficusSpeciesIdx : List (List Char × String) :=
  [("ficus benghalensis".data, "/static/Icons/Species/Ficus benghalensis.png")]

/-- C6: the species-icon resolver tries scientific name, common name, then
the parenthesis-stripped trimmed variants (added only if distinct), and
returns the first index hit: with scientific name
"Ficus benghalensis (Banyan)" and an index whose only key is
"ficus benghalensis", it succeeds via the stripped candidate (the direct
lookup of the full name misses). -/
theorem species_icon_paren_fallback :
    speciesCandidates "Ficus benghalensis (Banyan)".data [] =
      ["Ficus benghalensis (Banyan)".data, [], "Ficus benghalensis".data] ∧
    lookupA ficusSpeciesIdx
      (norm_keyL "Ficus benghalensis (Banyan)".data) = none ∧
    pick_species_icon ficusSpeciesIdx "Ficus benghalensis (Banyan)".data [] =
      some "/static/Icons/Species/Ficus benghalensis.png" := by
  decide

/-- C7: building an icon index over a non-existent directory returns the
empty index; the missing-directory case is silent defaulting, not a
failure. -/
theorem build_icon_index_missing_dir (fs : FS) (folder : String)
    (h : fs.isDir folder = false) : build_icon_index fs folder = [] := by
  simp [build_icon_index, h]

/-- A filesystem with no directories, files or entries at all. -/
def noFS : FS :=
  { isDir := fun _ => false
    listDir := fun _ => []
    isFile := fun _ => false
    rootRel := fun s => s
    globSorted := fun _ => [] }

/-- Witness for C7 on a concrete empty filesystem. -/
theorem build_icon_index_missing_dir_witness :
    build_icon_index noFS "static/Icons/Species" = [] :=
  build_icon_index_missing_dir noFS "static/Icons/Species" rfl

/-- C8: the fruit-icon alias loop is redundant: for every index and input,
the resolver returns exactly the direct lookup of the normalized input
(none for empty input). -/
theorem fruit_icon_alias_redundant (idx : List (List Char × String))
    (ft : List Char) :
    pick_fruit_icon idx ft =
      if ft = [] then none else lookupA idx (norm_keyL ft) := by
  by_cases hft : ft = []
  · simp [pick_fruit_icon, hft]
  · simp only [pick_fruit_icon, if_neg hft]
    cases hlk : lookupA idx (norm_keyL ft) with
    | some p => simp [hlk]
    | none => simp [hlk, fruitAlias_none hlk fruitAliases]

/-- C9: the key normalizer is total over arbitrary values: falsy inputs
(absent, False, 0, empty string) normalize to the empty string, any other
non-text input is coerced to its `str` form before normalization, and text
input is normalized directly. -/
theorem norm_key_total_coercion (v : PyVal) :
    (truthy v = false → norm_key_val v = "") ∧
      ((∀ s, v ≠ PyVal.vStr s) → truthy v = true →
        norm_key_val v = norm_key (pyStr v)) ∧
      (∀ s, v = PyVal.vStr s → norm_key_val v = norm_key s) := by
  refine ⟨?_, ?_, ?_⟩
  · intro h
    cases v with
    | vNone => decide
    | vBool b =>
      cases b with
      | false => decide
      | true => simp [truthy] at h
    | vInt n =>
      have hn : n = 0 := by simpa [truthy] using h
      subst hn
      decide
    | vStr s =>
      have hs : s = "" := by simpa [truthy] using h
      subst hs
      decide
  · intro hns ht
    cases v with
    | vNone => simp [truthy] at ht
    | vBool b =>
      cases b with
      | false => simp [truthy] at ht
      | true => rfl
    | vInt n =>
      have hc : coerceStr (PyVal.vInt n) = pyStr (PyVal.vInt n) := by
        show (if truthy (PyVal.vInt n) then pyStr (PyVal.vInt n) else "") =
          pyStr (PyVal.vInt n)
        rw [if_pos ht]
      show norm_key (coerceStr (PyVal.vInt n)) = norm_key (pyStr (PyVal.vInt n))
      rw [hc]
    | vStr s => exact absurd rfl (hns s)
  · intro s hs
    subst hs
    rfl

/-- Witness for C9 at the concrete non-text truthy value 42. -/
theorem norm_key_total_coercion_witness :
    norm_key_val (PyVal.vInt 42) = norm_key (pyStr (PyVal.vInt 42)) :=
  (norm_key_total_coercion (PyVal.vInt 42)).2.1
    (fun _ hs => PyVal.noConfusion hs) (by decide)

/-- C10: every leaf text containing "compound" (case-insensitively, after
stripping) but not "simple" is classified "Pinnately compound" — including
the text "Palmately compound" itself — and the "Palmately compound"
category is reachable only for texts containing "palmate" but none of
"simple", "pinnate" or "compound". -/
theorem leaf_compound_bias (t : List Char) :
    (containsSub "compound".data (lowerStrip t) = true →
      containsSub "simple".data (lowerStrip t) = false →
      (leaf_category_and_subtype t).1 = some "Pinnately compound") ∧
    ((leaf_category_and_subtype t).1 = some "Palmately compound" →
      containsSub "palmate".data (lowerStrip t) = true ∧
      containsSub "simple".data (lowerStrip t) = false ∧
      containsSub "pinnate".data (lowerStrip t) = false ∧
      containsSub "compound".data (lowerStrip t) = false) ∧
    (leaf_category_and_subtype "Palmately compound".data).1 =
      some "Pinnately compound" := by
  have hdef : leaf_category_and_subtype t =
      (if sw "simple".data (lowerStrip t) = true ∨
          containsSub "simple".data (lowerStrip t) = true then
        ((some "Simple", none) : Option String × Option String)
      else if sw "pinnately".data (lowerStrip t) = true ∨
          containsSub "pinnate".data (lowerStrip t) = true ∨
          containsSub "compound".data (lowerStrip t) = true then
        (some "Pinnately compound", parenTag (stripOn isWs t))
      else if sw "palmately".data (lowerStrip t) = true ∨
          containsSub "palmate".data (lowerStrip t) = true then
        (some "Palmately compound", none)
      else (none, none)) := by
    simp only [leaf_category_and_subtype, lowerStrip, Bool.or_eq_true, or_assoc]
  refine ⟨?_, ?_, by decide⟩
  · intro h1 h2
    have hsw : sw "simple".data (lowerStrip t) = false := by
      cases hx : sw "simple".data (lowerStrip t) with
      | false => rfl
      | true => rw [sw_containsSub hx] at h2; exact Bool.noConfusion h2
    rw [hdef]
    simp [hsw, h2, h1]
  · intro hp
    rw [hdef] at hp
    split at hp
    next => exact absurd hp (by decide)
    next hc1 =>
      split at hp
      next => simp at hp
      next hc2 =>
        split at hp
        next hc3 =>
          simp only [not_or, Bool.not_eq_true] at hc1 hc2
          have hpal : containsSub "palmate".data (lowerStrip t) = true := by
            rcases hc3 with h | h
            · exact sw_containsSub (sw_trans (by decide) h)
            · exact h
          exact ⟨hpal, hc1.2, hc2.2.1, hc2.2.2⟩
        next => exact absurd hp (by decide)

/-- Witness for C10 at the concrete input "Palmately compound". -/
theorem leaf_compound_bias_witness :
    (leaf_category_and_subtype "Palmately compound".data).1 =
      some "Pinnately compound" :=
  (leaf_compound_bias "Palmately compound".data).1 (by decide) (by decide)

/-- C2: two rows with non-blank scientific names slugifying to the same id
give an ordered list holding both records in source order, while the
id-keyed map holds only the later row's record (last-wins, no error). -/
theorem duplicate_slug_last_wins (env : Env) (r1 r2 : Row)
    (h1 : (stripOn isWs r1.scientific_name.data).isEmpty = false)
    (h2 : (stripOn isWs r2.scientific_name.data).isEmpty = false)
    (h3 : (buildRecord env r1).id = (buildRecord env r2).id) :
    (load_and_process_data env [r1, r2]).1 =
      [buildRecord env r1, buildRecord env r2] ∧
    (load_and_process_data env [r1, r2]).2.1 =
      [((buildRecord env r1).id, buildRecord env r2)] := by
  have hkept : List.filter
      (fun r => !(stripOn isWs r.scientific_name.data).isEmpty) [r1, r2] =
      [r1, r2] := by
    simp [List.filter_cons, h1, h2]
  refine ⟨?_, ?_⟩ <;>
    simp only [load_and_process_data, hkept, List.foldl, List.nil_append,
      insertA, h3, if_pos, List.cons_append, List.singleton_append]

/-- The startup environment of the C2 witness: no assets on disk. -/
def env0 : Env :=
  { fs := noFS
    photoRoot := "static/photos"
    speciesIdx := []
    leafIdx := []
    fruitIdx := [] }

/-- First witness row for C2. -/
def rowA : Row :=
  { sr_no := "1"
    scientific_name := "Ficus Benghalensis"
    etymology := ""
    common_name := "Banyan"
    habitat := ""
    phenology := ""
    identification := ""
    leaf_type := "Simple leaf"
    fruit_type := "Fig"
    seed_germination := ""
    pest := "" }

/-- Second witness row for C2: same slug, different content. -/
def rowB : Row :=
  { sr_no := "2"
    scientific_name := "ficus  benghalensis"
    etymology := ""
    common_name := "Ban"
    habitat := ""
    phenology := ""
    identification := ""
    leaf_type := "Palmately compound"
    fruit_type := ""
    seed_germination := ""
    pest := "" }

/-- Witness for C2 on two concrete rows whose names slugify identically. -/
theorem duplicate_slug_last_wins_witness :
    (load_and_process_data env0 [rowA, rowB]).1 =
      [buildRecord env0 rowA, buildRecord env0 rowB] ∧
    (load_and_process_data env0 [rowA, rowB]).2.1 =
      [((buildRecord env0 rowA).id, buildRecord env0 rowB)] :=
  duplicate_slug_last_wins env0 rowA rowB (by decide) (by decide) (by decide)

end FloraCarbon
